import Mathlib

/-!
Verification of the SQL column-lineage extractor of the dbt mapping-doc
generator.  The definitions below are shallow embeddings, over `List Char`,
of the Python functions in
`src/dbt-mapping-doc-generator/scripts/generate_enhanced_mapping.py` and
`src/dbt-mapping-doc-generator/scripts/generate_mapping_doc.py`.
The corpus handled by the scripts is ASCII SQL text, so Python's
character predicates (`str.isalnum`, `str.lower`, `\w`, `\s`, `\d`)
are embedded by their ASCII meaning.
-/

/-- Python `str.isalnum` on ASCII characters: a letter or a digit.
Note that `_` is NOT alphanumeric. -/
def pyIsAlnum (c : Char) : Bool := c.isAlpha || c.isDigit

/-- The regex class `\w`: letters, digits and underscore. -/
def isWordChar (c : Char) : Bool := pyIsAlnum c || c = '_'

/-- First character of a regex identifier `[a-zA-Z_]`. -/
def isIdentStart (c : Char) : Bool := c.isAlpha || c = '_'

/-- Python whitespace (`str.strip`, `str.split`, regex `\s`) on ASCII. -/
def pyIsSpace (c : Char) : Bool :=
  c = ' ' || c = '\t' || c = '\n' || c = '\r' || c = '\x0b' || c = '\x0c'

/-- Python `str.lower` on ASCII text. -/
def lowerL (t : List Char) : List Char := t.map Char.toLower

/-- Python `str.upper` on ASCII text. -/
def upperL (t : List Char) : List Char := t.map Char.toUpper

/-- Python `str.strip()`: drop leading and trailing whitespace. -/
def pyStrip (t : List Char) : List Char :=
  ((t.dropWhile pyIsSpace).reverse.dropWhile pyIsSpace).reverse

/-- Worker for `pySplitWS`: `tok` is the token being read, reversed. -/
def pySplitWSgo : List Char → List Char → List (List Char)
  | [], tok => if tok.isEmpty then [] else [tok.reverse]
  | c :: cs, tok =>
    if pyIsSpace c then
      if tok.isEmpty then pySplitWSgo cs [] else tok.reverse :: pySplitWSgo cs []
    else pySplitWSgo cs (c :: tok)

/-- Python `str.split()` with no argument: whitespace-run separated
tokens, empty tokens never produced. -/
def pySplitWS (t : List Char) : List (List Char) := pySplitWSgo t []

/-- Join token lists with single spaces. -/
def joinSpace : List (List Char) → List Char
  | [] => []
  | [x] => x
  | x :: xs => x ++ ' ' :: joinSpace xs

/-- Python `' '.join(s.split())`: collapse whitespace runs. -/
def pyCollapseWS (t : List Char) : List Char := joinSpace (pySplitWS t)

/-- Python substring containment `pat in t`. -/
def containsSeq (pat : List Char) : List Char → Bool
  | [] => pat.isEmpty
  | c :: cs => pat.isPrefixOf (c :: cs) || containsSeq pat cs

/-!  ## The enhanced top-level splitter
`split_by_comma_respecting_case` (generate_enhanced_mapping.py, lines
107-147).  The scan keeps a `CASE`/`END` depth and a parenthesis depth;
the keyword tests require a non-alphanumeric character (or a text edge)
on both sides (`text[i-1]`/`text[i+4]` checks of the source). -/

/-- `i == 0 or not text[i-1].isalnum()`: the left word-boundary test. -/
def leftBoundary : Option Char → Bool
  | none => true
  | some c => !pyIsAlnum c

/-- `text[i:i+4].lower() == 'case'` together with both boundary tests,
`prev` being the character before the current position. -/
def caseKwHere (prev : Option Char) (t : List Char) : Bool :=
  decide (lowerL (t.take 4) = ['c', 'a', 's', 'e']) && leftBoundary prev &&
    (match t.drop 4 with
     | [] => true
     | d :: _ => !pyIsAlnum d)

/-- `text[i:i+3].lower() == 'end'` together with both boundary tests. -/
def endKwHere (prev : Option Char) (t : List Char) : Bool :=
  decide (lowerL (t.take 3) = ['e', 'n', 'd']) && leftBoundary prev &&
    (match t.drop 3 with
     | [] => true
     | d :: _ => !pyIsAlnum d)

/-- The Depth Tracker step of the enhanced scan: both keyword updates
(floored at zero where the source writes `max(0, ...)`), then the
parenthesis update, for the character `c` followed by `cs` and
preceded by `prev`.  Returns the updated `(caseDepth, parenDepth)`. -/
def depthStep (prev : Option Char) (c : Char) (cs : List Char) (d p : Int) :
    Int × Int :=
  let d1 := if caseKwHere prev (c :: cs) then d + 1 else d
  let d2 := if endKwHere prev (c :: cs) then max 0 (d1 - 1) else d1
  let p1 := if c = '(' then p + 1 else if c = ')' then max 0 (p - 1) else p
  (d2, p1)

/-- Loop body of `split_by_comma_respecting_case`: one character per
step, the comma test using the updated depths; at the end of the text
the accumulated segment is kept only if `current.strip()` is
non-empty. -/
def splitRCgo : List Char → Option Char → Int → Int → List Char →
    List (List Char) → List (List Char)
  | [], _, _, _, cur, acc =>
    if cur.any (fun c => !pyIsSpace c) then acc ++ [cur] else acc
  | c :: cs, prev, d, p, cur, acc =>
    let s := depthStep prev c cs d p
    if c = ',' ∧ s.1 = 0 ∧ s.2 = 0 then
      splitRCgo cs (some c) s.1 s.2 [] (acc ++ [cur])
    else
      splitRCgo cs (some c) s.1 s.2 (cur ++ [c]) acc

/-- `split_by_comma_respecting_case` (generate_enhanced_mapping.py). -/
def split_by_comma_respecting_case (text : List Char) : List (List Char) :=
  splitRCgo text none 0 0 [] []

/-- State mirror of the same scan: the `(caseDepth, parenDepth)` pair
after consuming the whole text from a given start state. -/
def scanCaseParen : List Char → Option Char → Int → Int → Int × Int
  | [], _, d, p => (d, p)
  | c :: cs, prev, d, p =>
    scanCaseParen cs (some c) (depthStep prev c cs d p).1 (depthStep prev c cs d p).2

/-- Count mirror: how many commas of the text the scan splits at
(i.e. the commas seen with both depth counters at zero). -/
def countTopCommas : List Char → Option Char → Int → Int → Nat
  | [], _, _, _ => 0
  | c :: cs, prev, d, p =>
    let s := depthStep prev c cs d p
    (if c = ',' ∧ s.1 = 0 ∧ s.2 = 0 then 1 else 0) +
      countTopCommas cs (some c) s.1 s.2

/-- Segment mirror: the value of `current` held by the scan when the
text runs out (the final accumulated segment). -/
def lastSegment : List Char → Option Char → Int → Int → List Char → List Char
  | [], _, _, _, cur => cur
  | c :: cs, prev, d, p, cur =>
    let s := depthStep prev c cs d p
    if c = ',' ∧ s.1 = 0 ∧ s.2 = 0 then
      lastSegment cs (some c) s.1 s.2 []
    else
      lastSegment cs (some c) s.1 s.2 (cur ++ [c])

/-- Join a list of segments with single commas; used to state the
round-trip property of the splitter. -/
def joinComma : List (List Char) → List Char
  | [] => []
  | [x] => x
  | x :: xs => x ++ ',' :: joinComma xs

namespace DbtModelAnalyzer

/-- Loop body of `DbtModelAnalyzer._split_by_comma`
(generate_mapping_doc.py, lines 200-242).  `CASE`/`END` are matched
with `text[i:i+4].upper()` with NO word-boundary test and the matched
characters are consumed in one step (`i += 4` / `i += 3` of the
source, modelled by the `skip` counter that blindly appends the
remaining matched characters); `)` decrements `paren_depth` WITHOUT
flooring (the counter can go negative); the final segment is kept
whenever it is non-empty (no strip test). -/
def docSplitGo : List Char → Nat → Int → Int → List Char →
    List (List Char) → List (List Char)
  | [], _, _, _, cur, acc => if cur.isEmpty then acc else acc ++ [cur]
  | c :: cs, n + 1, p, d, cur, acc => docSplitGo cs n p d (cur ++ [c]) acc
  | c :: cs, 0, p, d, cur, acc =>
    if decide (upperL ((c :: cs).take 4) = ['C', 'A', 'S', 'E']) then
      docSplitGo cs 3 p (d + 1) (cur ++ [c]) acc
    else if decide (upperL ((c :: cs).take 3) = ['E', 'N', 'D']) then
      docSplitGo cs 2 p (max 0 (d - 1)) (cur ++ [c]) acc
    else if c = '(' then docSplitGo cs 0 (p + 1) d (cur ++ [c]) acc
    else if c = ')' then docSplitGo cs 0 (p - 1) d (cur ++ [c]) acc
    else if c = ',' ∧ p = 0 ∧ d = 0 then docSplitGo cs 0 p d [] (acc ++ [cur])
    else docSplitGo cs 0 p d (cur ++ [c]) acc

/-- `DbtModelAnalyzer._split_by_comma` (generate_mapping_doc.py). -/
def _split_by_comma (text : List Char) : List (List Char) :=
  docSplitGo text 0 0 0 [] []

/-- State mirror of `_split_by_comma`: `(caseDepth, parenDepth)` after
the whole text. -/
def docScanDepths : List Char → Nat → Int → Int → Int × Int
  | [], _, p, d => (d, p)
  | _ :: cs, n + 1, p, d => docScanDepths cs n p d
  | c :: cs, 0, p, d =>
    if decide (upperL ((c :: cs).take 4) = ['C', 'A', 'S', 'E']) then
      docScanDepths cs 3 p (d + 1)
    else if decide (upperL ((c :: cs).take 3) = ['E', 'N', 'D']) then
      docScanDepths cs 2 p (max 0 (d - 1))
    else if c = '(' then docScanDepths cs 0 (p + 1) d
    else if c = ')' then docScanDepths cs 0 (p - 1) d
    else docScanDepths cs 0 p d

end DbtModelAnalyzer

/-!  ## `parse_select_columns` (generate_enhanced_mapping.py, lines 71-105)
and its helpers.  The source uses three regexes:
`--.*?\n` (comment removal), `{%.*?%}` with DOTALL (Jinja removal) and
`^(.*?)\s+as\s+(\w+)\s*$` with IGNORECASE|DOTALL (alias separation);
each is embedded by a scanner with the same leftmost / lazy-group
semantics. -/

/-- Index of the first `'\n'`. -/
def nlIndex : List Char → Option Nat
  | [] => none
  | '\n' :: _ => some 0
  | _ :: t => (nlIndex t).map (· + 1)

/-- `re.sub(r'--.*?\n', '\n', s)`: each `--` comment up to and
including the first following newline is replaced by a single newline;
a trailing `--` comment with no newline after it has no match and is
kept.  The `Nat` argument counts characters of an already-matched
comment still to delete (the scan then resumes after the match, as
`re.sub` does). -/
def rcGo : List Char → Nat → List Char
  | [], _ => []
  | _ :: cs, n + 1 => rcGo cs n
  | '-' :: '-' :: rest, 0 =>
    match nlIndex rest with
    | some i => '\n' :: rcGo rest (i + 1)
    | none => '-' :: '-' :: rest
  | c :: cs, 0 => c :: rcGo cs 0

/-- Comment removal of `parse_select_columns` (line 76). -/
def removeComments (t : List Char) : List Char := rcGo t 0

/-- Index of the first `%}`. -/
def jinjaCloseIndex : List Char → Option Nat
  | [] => none
  | '%' :: '}' :: _ => some 0
  | _ :: t => (jinjaCloseIndex t).map (· + 1)

/-- `re.sub(r'{%.*?%}', ' [jinja_template] ', s, flags=re.DOTALL)`:
each `{% ... %}` block (lazy body, so up to the first `%}`) is replaced
by the placeholder; a `{%` with no later `%}` is kept. -/
def rjGo : List Char → Nat → List Char
  | [], _ => []
  | _ :: cs, n + 1 => rjGo cs n
  | '{' :: '%' :: rest, 0 =>
    match jinjaCloseIndex rest with
    | some i => " [jinja_template] ".toList ++ rjGo rest (i + 2)
    | none => '{' :: '%' :: rest
  | c :: cs, 0 => c :: rjGo cs 0

/-- Jinja removal of `parse_select_columns` (line 79). -/
def removeJinja (t : List Char) : List Char := rjGo t 0

/-- The suffix part `\s+as\s+(\w+)\s*$` of the alias regex
(IGNORECASE): at least one whitespace, `as`, at least one whitespace,
a word run (the captured alias), then only whitespace to the end.
Returns the alias when the whole rest matches. -/
def asSuffixAlias (r : List Char) : Option (List Char) :=
  let w1 := r.takeWhile pyIsSpace
  if w1.isEmpty then none
  else
    let r1 := r.drop w1.length
    if decide (lowerL (r1.take 2) = ['a', 's']) then
      let r2 := r1.drop 2
      let w2 := r2.takeWhile pyIsSpace
      if w2.isEmpty then none
      else
        let r3 := r2.drop w2.length
        let w := r3.takeWhile isWordChar
        if w.isEmpty then none
        else if (r3.drop w.length).all pyIsSpace then some w else none
    else none

/-- `re.search(r'^(.*?)\s+as\s+(\w+)\s*$', expr, IGNORECASE|DOTALL)`:
the lazy group `(.*?)` grows from the empty prefix until the remaining
text matches the suffix pattern; returns `(group 1, group 2)`. -/
def asSplitSearch : List Char → List Char → Option (List Char × List Char)
  | pre, [] =>
    match asSuffixAlias [] with
    | some w => some (pre, w)
    | none => none
  | pre, c :: cs =>
    match asSuffixAlias (c :: cs) with
    | some w => some (pre, w)
    | none => asSplitSearch (pre ++ [c]) cs

/-- Worker of `extract_source_column`: `runRev` holds, reversed, the
word-character run immediately before the current position.  At the
first `.` that has a word run before it and a word character after it,
the match `(\w+)\.(\w+)` is returned (both groups maximal). -/
def extract_source_column_go : List Char → List Char → List Char
  | _, [] => []
  | runRev, '.' :: rest =>
    (match runRev, rest with
     | _ :: _, d :: rest2 =>
       if isWordChar d then
         runRev.reverse ++ '.' :: d :: rest2.takeWhile isWordChar
       else extract_source_column_go [] rest
     | _, _ => extract_source_column_go [] rest)
  | runRev, c :: cs =>
    if isWordChar c then extract_source_column_go (c :: runRev) cs
    else extract_source_column_go [] cs

/-- `extract_source_column` (generate_enhanced_mapping.py, lines
149-155): the FIRST match of `(\w+)\.(\w+)` in the expression, as
written (no uppercasing, no further matches); `""` when there is
none. -/
def extract_source_column (expression : List Char) : List Char :=
  extract_source_column_go [] expression

/-- The per-column record built by `parse_select_columns`
(lines 99-103). -/
structure ColRec where
  expression : List Char
  source_column : List Char
  is_case : Bool
deriving DecidableEq

/-- Python dict assignment `columns[col_name] = v`: replace in place
when the key exists (insertion order kept), else append. -/
def dictInsert (m : List (List Char × ColRec)) (k : List Char) (v : ColRec) :
    List (List Char × ColRec) :=
  if m.any (fun q => decide (q.1 = k)) then
    m.map (fun q => if q.1 = k then (k, v) else q)
  else m ++ [(k, v)]

/-- The loop body of `parse_select_columns` for one split expression:
strip, skip when empty, match the alias regex (skip when it fails),
then store the uppercased alias with the whitespace-collapsed
expression, its first source column, and the `'case' in
expression.lower()` flag. -/
def parseColumnEntry (e0 : List Char) : Option (List Char × ColRec) :=
  let e := pyStrip e0
  if e.isEmpty then none
  else
    match asSplitSearch [] e with
    | none => none
    | some (g1, w) =>
      let expression := pyCollapseWS (pyStrip g1)
      some (upperL w,
        ⟨expression, extract_source_column expression,
          containsSeq ['c', 'a', 's', 'e'] (lowerL expression)⟩)

/-- `parse_select_columns` (generate_enhanced_mapping.py, lines
71-105): comments out, Jinja out, split at top level, then one dict
entry per expression that matches the alias regex. -/
def parse_select_columns (select_clause : List Char) : List (List Char × ColRec) :=
  let s1 := removeComments select_clause
  let s2 := removeJinja s1
  (split_by_comma_respecting_case s2).foldl
    (fun cols e =>
      match parseColumnEntry e with
      | some (k, v) => dictInsert cols k v
      | none => cols) []

/-!  ## `parse_final_select_enhanced` (generate_enhanced_mapping.py,
lines 33-69): locate the `final as ( ... ) select * from final` CTE
(lazy body group), then scan its lines for the projection. -/

/-- Whether the closing part `\)\s*select\s+\*\s+from\s+final`
(IGNORECASE) matches at the start of `t`. -/
def finalCloserAt (t : List Char) : Bool :=
  match t with
  | ')' :: r0 =>
    let r1 := r0.drop (r0.takeWhile pyIsSpace).length
    decide (lowerL (r1.take 6) = "select".toList) &&
      (let r2 := r1.drop 6
       let w1 := r2.takeWhile pyIsSpace
       !w1.isEmpty &&
         match r2.drop w1.length with
         | '*' :: r3 =>
           let w2 := r3.takeWhile pyIsSpace
           !w2.isEmpty &&
             (let r4 := r3.drop w2.length
              decide (lowerL (r4.take 4) = "from".toList) &&
                (let r5 := r4.drop 4
                 let w3 := r5.takeWhile pyIsSpace
                 !w3.isEmpty &&
                   decide (lowerL ((r5.drop w3.length).take 5) = "final".toList)))
         | _ => false)
  | _ => false

/-- Lazy body group of the final-CTE regex: grow the accumulated body
until the closer matches at the remaining text. -/
def finalBodySearch : List Char → List Char → Option (List Char)
  | [], acc => if finalCloserAt [] then some acc else none
  | c :: cs, acc =>
    if finalCloserAt (c :: cs) then some acc
    else finalBodySearch cs (acc ++ [c])

/-- Whether `final\s+as\s*\(` (IGNORECASE) matches at the start of
`t`; if so, run the lazy body search after the `(`. -/
def finalHeadAt (t : List Char) : Option (List Char) :=
  if decide (lowerL (t.take 5) = "final".toList) then
    let r0 := t.drop 5
    let w1 := r0.takeWhile pyIsSpace
    if w1.isEmpty then none
    else
      let r1 := r0.drop w1.length
      if decide (lowerL (r1.take 2) = ['a', 's']) then
        let r2 := (r1.drop 2)
        let r3 := r2.drop (r2.takeWhile pyIsSpace).length
        match r3 with
        | '(' :: r4 => finalBodySearch r4 []
        | _ => none
      else none
  else none

/-- `re.search(r'final\s+as\s*\((.*?)\)\s*select\s+\*\s+from\s+final',
sql, DOTALL|IGNORECASE)`: leftmost start, lazy body; returns
`group(1)`. -/
def findFinalCte : List Char → Option (List Char)
  | [] => none
  | c :: cs =>
    match finalHeadAt (c :: cs) with
    | some b => some b
    | none => findFinalCte cs

/-- Python `str.split('\n')`. -/
def splitNL : List Char → List (List Char)
  | [] => [[]]
  | '\n' :: rest => [] :: splitNL rest
  | c :: rest =>
    match splitNL rest with
    | l :: ls => (c :: l) :: ls
    | [] => [[c]]

/-- Python `'\n'.join(lines)`. -/
def joinNL : List (List Char) → List Char
  | [] => []
  | [x] => x
  | x :: xs => x ++ '\n' :: joinNL xs

/-- The line scan of `parse_final_select_enhanced` (lines 52-58): a
line whose strip-lowercase starts with `select` (re)sets
`select_start`; afterwards the first line starting with `from` stops
the scan.  Returns `(select_start, from_line)` as indices. -/
def findSelectFrom : List (List Char) → Nat → Option Nat → Option (Nat × Nat)
  | [], _, _ => none
  | l :: ls, i, sel =>
    let st := lowerL (pyStrip l)
    if "select".toList.isPrefixOf st then findSelectFrom ls (i + 1) (some i)
    else
      match sel with
      | some s =>
        if "from".toList.isPrefixOf st then some (s, i)
        else findSelectFrom ls (i + 1) (some s)
      | none => findSelectFrom ls (i + 1) none

/-- `parse_final_select_enhanced` (generate_enhanced_mapping.py, lines
33-69).  When the final CTE or its `select`/`from` line pair is not
found the function returns the empty dict (its only channel is the
returned value). -/
def parse_final_select_enhanced (sql_content : List Char) : List (List Char × ColRec) :=
  match findFinalCte sql_content with
  | none => []
  | some body =>
    let lines := splitNL body
    match findSelectFrom lines 0 none with
    | none => []
    | some (s, f) =>
      parse_select_columns (joinNL ((lines.drop (s + 1)).take (f - (s + 1))))

/-- Diagnostics emitted by `parse_final_select_enhanced`: the source
function prints nothing and raises nothing; besides its return value
it produces no output on any path (generate_enhanced_mapping.py,
lines 33-69), so its diagnostic sequence is empty for every input. -/
def parse_final_select_enhanced_diags (_sql_content : List Char) : List (List Char) :=
  []

/-- The no-structure condition of the claim: no final CTE, or no
`select`/`from` line pair inside its body. -/
def noProjection (sql_content : List Char) : Bool :=
  match findFinalCte sql_content with
  | none => true
  | some body => (findSelectFrom (splitNL body) 0 none).isNone

namespace DbtModelAnalyzer

/-- Worker for `_extract_source_columns`: scan for matches of
`\b([a-zA-Z_][a-zA-Z0-9_]*\.)?([a-zA-Z_][a-zA-Z0-9_]*)\b` and collect
the second group of each.  `prevW` says whether the previous character
is a word character (the `\b` test); the optional qualifier is taken
when a `.` and a following identifier are present, else the engine
backtracks to the bare identifier.  The `Nat` argument counts
characters of an already-emitted match still to step over (the scan
resumes after each match, `re.finditer` being non-overlapping). -/
def docIdentsGo : Bool → List Char → Nat → List (List Char)
  | _, [], _ => []
  | _, _ :: cs, n + 1 => docIdentsGo true cs n
  | prevW, c :: cs, 0 =>
    if !prevW && isIdentStart c then
      match cs.drop (cs.takeWhile isWordChar).length with
      | '.' :: d :: rest2 =>
        if isIdentStart d then
          (d :: rest2.takeWhile isWordChar) ::
            docIdentsGo true cs
              ((cs.takeWhile isWordChar).length + 2 +
                (rest2.takeWhile isWordChar).length)
        else
          (c :: cs.takeWhile isWordChar) ::
            docIdentsGo true cs (cs.takeWhile isWordChar).length
      | _ =>
        (c :: cs.takeWhile isWordChar) ::
          docIdentsGo true cs (cs.takeWhile isWordChar).length
    else docIdentsGo (isWordChar c) cs 0

/-- The reserved keyword list of `_extract_source_columns`
(generate_mapping_doc.py, lines 256-258). -/
def sqlKeywords : List (List Char) :=
  ["SELECT", "FROM", "WHERE", "AND", "OR", "AS", "CASE", "WHEN",
   "THEN", "ELSE", "END", "NULL", "TRUE", "FALSE", "IN", "NOT",
   "IS", "LIKE", "BETWEEN", "EXISTS", "ALL", "ANY"].map String.toList

/-- `_extract_source_columns` before the final `list(set(...))`
(generate_mapping_doc.py, lines 244-261): every identifier match's
unqualified name, uppercased, keyword-filtered, in scan order with
duplicates. -/
def _extract_source_columns_list (transformation : List Char) : List (List Char) :=
  ((docIdentsGo false transformation 0).map upperL).filter
    (fun col => decide (col ∉ sqlKeywords))

/-- `_extract_source_columns` up to the `list(set(...))` step, whose
CPython iteration order is unspecified: the result as a finite set. -/
def _extract_source_columns_set (transformation : List Char) : Finset (List Char) :=
  (_extract_source_columns_list transformation).toFinset

end DbtModelAnalyzer

/-!  ## `extract_case_logic` (generate_enhanced_mapping.py, lines
157-205).  The source applies, one after the other, the five regexes of
`when_patterns` with `re.finditer` — the single-quote pattern appears
TWICE in that list (lines 169 and 172) — collecting all matches of each
pattern, then tries the four `else` regexes with `re.search`, first hit
wins.  Each value matcher below returns the captured group and the
number of characters consumed. -/

/-- `'([^']*)'`: single-quoted string literal. -/
def matchValueSQ (r : List Char) : Option (List Char × Nat) :=
  match r with
  | '\'' :: rest =>
    let v := rest.takeWhile (fun c => !(c = '\''))
    if v.length < rest.length then some (v, v.length + 2) else none
  | _ => none

/-- `"([^"]*)"`: double-quoted string literal. -/
def matchValueDQ (r : List Char) : Option (List Char × Nat) :=
  match r with
  | '"' :: rest =>
    let v := rest.takeWhile (fun c => !(c = '"'))
    if v.length < rest.length then some (v, v.length + 2) else none
  | _ => none

/-- `(\d+)`: unsigned integer literal (greedy). -/
def matchValueNum (r : List Char) : Option (List Char × Nat) :=
  let v := r.takeWhile Char.isDigit
  if v.isEmpty then none else some (v, v.length)

/-- `(\w+)`: bare word token (greedy). -/
def matchValueWord (r : List Char) : Option (List Char × Nat) :=
  let v := r.takeWhile isWordChar
  if v.isEmpty then none else some (v, v.length)

/-- `\s+then\s+VALUE` at the start of `r` (IGNORECASE): whitespace
runs are maximal (no backtracking is possible, `then` and all value
forms start with non-whitespace). -/
def thenValueAt (vm : List Char → Option (List Char × Nat)) (r : List Char) :
    Option (List Char × Nat) :=
  let w1 := r.takeWhile pyIsSpace
  if w1.isEmpty then none
  else
    let r1 := r.drop w1.length
    if decide (lowerL (r1.take 4) = "then".toList) then
      let r2 := r1.drop 4
      let w2 := r2.takeWhile pyIsSpace
      if w2.isEmpty then none
      else
        match vm (r2.drop w2.length) with
        | some (v, n) => some (v, w1.length + 4 + w2.length + n)
        | none => none
    else none

/-- Lazy condition group `(.*?)` (DOTALL): grow the condition one
character at a time until `\s+then\s+VALUE` matches the rest. -/
def whenCondSearch (vm : List Char → Option (List Char × Nat)) :
    List Char → List Char → Option (List Char × List Char × Nat)
  | [], cond =>
    (match thenValueAt vm [] with
     | some (v, n) => some (cond, v, cond.length + n)
     | none => none)
  | c :: cs, cond =>
    match thenValueAt vm (c :: cs) with
    | some (v, n) => some (cond, v, cond.length + n)
    | none => whenCondSearch vm cs (cond ++ [c])

/-- `when\s+(.*?)\s+then\s+VALUE` at the start of `t` (IGNORECASE):
returns (condition group, value group, characters consumed). -/
def whenMatchAt (vm : List Char → Option (List Char × Nat)) (t : List Char) :
    Option (List Char × List Char × Nat) :=
  if decide (lowerL (t.take 4) = "when".toList) then
    let r := t.drop 4
    let w := r.takeWhile pyIsSpace
    if w.isEmpty then none
    else
      match whenCondSearch vm (r.drop w.length) [] with
      | some (cond, v, n) => some (cond, v, 4 + w.length + n)
      | none => none
  else none

/-- `re.finditer` of one `when` pattern: leftmost matches, the scan
resuming after each match (non-overlapping); the `Nat` counts
characters of the last match still to step over. -/
def whenFindIter (vm : List Char → Option (List Char × Nat)) :
    List Char → Nat → List (List Char × List Char)
  | [], _ => []
  | _ :: cs, n + 1 => whenFindIter vm cs n
  | c :: cs, 0 =>
    match whenMatchAt vm (c :: cs) with
    | some (cond, v, m) => (cond, v) :: whenFindIter vm cs (m - 1)
    | none => whenFindIter vm cs 0

/-- One pass of the `when_patterns` loop (lines 176-189): condition
stripped then whitespace-collapsed, value stripped, the pair kept only
when both are non-empty. -/
def whenPass (vm : List Char → Option (List Char × Nat)) (e : List Char) :
    List (List Char × List Char) :=
  (whenFindIter vm e 0).filterMap (fun cv =>
    let cond := pyCollapseWS (pyStrip cv.1)
    let v := pyStrip cv.2
    if cond.isEmpty || v.isEmpty then none else some (cond, v))

/-- `else\s+VALUE` at the start of `t` (IGNORECASE). -/
def elseMatchAt (vm : List Char → Option (List Char × Nat)) (t : List Char) :
    Option (List Char) :=
  if decide (lowerL (t.take 4) = "else".toList) then
    let r := t.drop 4
    let w := r.takeWhile pyIsSpace
    if w.isEmpty then none
    else
      match vm (r.drop w.length) with
      | some (v, _) => some v
      | none => none
  else none

/-- `re.search` of one `else` pattern: leftmost match. -/
def elseSearch (vm : List Char → Option (List Char × Nat)) :
    List Char → Option (List Char)
  | [] => none
  | c :: cs =>
    match elseMatchAt vm (c :: cs) with
    | some v => some v
    | none => elseSearch vm cs

/-- The record built by `extract_case_logic`. -/
structure CaseLogic where
  conditions : List (List Char × List Char)
  else_value : Option (List Char)
deriving DecidableEq

/-- `extract_case_logic` (generate_enhanced_mapping.py, lines
157-205), gated on `'case' in expression.lower()`.  The five
`when_patterns` passes are concatenated in source order — with the
single-quote pattern applied twice, as in the source — and the four
`else` patterns are tried in order, first hit wins, its group
stripped. -/
def extract_case_logic (expression : List Char) : Option CaseLogic :=
  if containsSeq ['c', 'a', 's', 'e'] (lowerL expression) then
    some
      ⟨whenPass matchValueSQ expression ++ whenPass matchValueDQ expression ++
        whenPass matchValueNum expression ++ whenPass matchValueSQ expression ++
        whenPass matchValueWord expression,
        match elseSearch matchValueSQ expression with
        | some v => some (pyStrip v)
        | none =>
          match elseSearch matchValueDQ expression with
          | some v => some (pyStrip v)
          | none =>
            match elseSearch matchValueNum expression with
            | some v => some (pyStrip v)
            | none =>
              match elseSearch matchValueWord expression with
              | some v => some (pyStrip v)
              | none => none⟩
  else none

/-!  ## Side conditions used by the comparison of the two splitters. -/

/-- No position of the text passes the `CASE`/`END` tests of either
splitter (the lowered 4/3-character windows of
`split_by_comma_respecting_case` and the uppered ones of
`_split_by_comma`). -/
def kwFree : List Char → Bool
  | [] => true
  | c :: cs =>
    !decide (lowerL ((c :: cs).take 4) = ['c', 'a', 's', 'e']) &&
    !decide (upperL ((c :: cs).take 4) = ['C', 'A', 'S', 'E']) &&
    !decide (lowerL ((c :: cs).take 3) = ['e', 'n', 'd']) &&
    !decide (upperL ((c :: cs).take 3) = ['E', 'N', 'D']) &&
    kwFree cs

/-- Every `)` of the text closes an earlier `(`, relative to a running
start depth `p`: the parenthesis counter never needs the floor. -/
def parenOk : Int → List Char → Bool
  | _, [] => true
  | p, c :: cs =>
    if c = '(' then parenOk (p + 1) cs
    else if c = ')' then decide (1 ≤ p) && parenOk (p - 1) cs
    else parenOk p cs

/-- The claim's notion for `isConditional` (C6): the word `case`
(case-insensitive) occurs somewhere with a non-word character or a
text edge on both sides. -/
def hasCaseAtWordBoundary : Option Char → List Char → Bool
  | _, [] => false
  | prev, c :: cs =>
    (decide (lowerL ((c :: cs).take 4) = ['c', 'a', 's', 'e']) &&
      (match prev with
       | none => true
       | some b => !isWordChar b) &&
      (match (c :: cs).drop 4 with
       | [] => true
       | d :: _ => !isWordChar d)) ||
    hasCaseAtWordBoundary (some c) cs

/-- No position of the enhanced scan over `t` (coming after `prev`)
passes a `CASE` or `END` keyword test. -/
def enhKwQuiet : Option Char → List Char → Bool
  | _, [] => true
  | prev, c :: cs =>
    !caseKwHere prev (c :: cs) && !endKwHere prev (c :: cs) &&
      enhKwQuiet (some c) cs

/-!  # Claims

Each claim of the specification is settled below.  Counterexamples are
closed evaluations of the embedded source functions; amended claims
are proved as general theorems. -/

/-- C1, counterexample.  The claim promises `N+1` expressions for `N`
top-level commas unconditionally, but a trailing top-level comma
leaves a final segment that fails `current.strip()` and is dropped:
on `"a,"` there is `N = 1` top-level comma yet the splitter returns
one expression, not two. -/
theorem C1_trailing_comma_counterexample :
    ¬ ((split_by_comma_respecting_case "a,".toList).length =
      countTopCommas "a,".toList none 0 0 + 1) := by decide

/-- C2, counterexample.  The claim states that the bare identifier
`CASE_TYPE` never increments `caseDepth`, i.e. that scanning it from
depth zero ends at depth zero.  It does not: `_` is not alphanumeric,
so the `CASE` of `CASE_TYPE` passes both boundary tests of
`split_by_comma_respecting_case` and `caseDepth` ends at 1. -/
theorem C2_case_type_counterexample :
    scanCaseParen "CASE_TYPE".toList none 0 0 ≠ (0, 0) := by decide

/-- C3 (code bug), evaluation at the failing input.  The source's
`when_patterns` list contains the single-quote pattern twice (lines
169 and 172 of generate_enhanced_mapping.py), so decomposing
`CASE WHEN a THEN '1' WHEN b THEN '2' ELSE '3' END` returns each
branch twice — `[(a,1),(b,2),(a,1),(b,2)]` — instead of the claimed
`[(a,1),(b,2)]`; the else value `'3'` is extracted once. -/
theorem C3_duplicated_branches_eval :
    extract_case_logic
      "case when a then '1' when b then '2' else '3' end".toList =
    some ⟨[("a".toList, "1".toList), ("b".toList, "2".toList),
           ("a".toList, "1".toList), ("b".toList, "2".toList)],
          some "3".toList⟩ := by decide

/-- C4, counterexample.  The claim covers the aliasing form without
the `AS` keyword (`expression identifier`), but the alias regex of
`parse_select_columns` (line 90) requires a literal `as`, so
`tbl.col alias_name` produces no mapping at all instead of one with
alias `ALIAS_NAME`. -/
theorem C4_no_as_dropped_counterexample :
    parse_select_columns "tbl.col alias_name".toList = [] := by decide

/-- C5, counterexample.  For `coalesce(a.x, b.y, 0)` the claim
promises the source-reference set `{A.X, B.Y}`.  The enhanced
implementation keeps only the FIRST `\w+\.\w+` match, `a.x`; the
generate_mapping_doc implementation collects unqualified identifier
names and returns `{COALESCE, X, Y}`.  Neither equals `{A.X, B.Y}`. -/
theorem C5_source_refs_counterexample :
    extract_source_column "coalesce(a.x, b.y, 0)".toList = "a.x".toList ∧
    DbtModelAnalyzer._extract_source_columns_set
      "coalesce(a.x, b.y, 0)".toList ≠
      {"A.X".toList, "B.Y".toList} := by decide

/-- C5, amended.  The scenario `coalesce(a.x, b.y, 0) as z` as the
code computes it: alias `Z`, `isConditional = false`, the enhanced
source reference is the single first match `a.x` (as written, not
uppercased), and the generate_mapping_doc reference set is
`{COALESCE, X, Y}` (unqualified names, uppercased, keyword-filtered,
deduplicated). -/
theorem C5_source_refs_amended :
    parse_select_columns "coalesce(a.x, b.y, 0) as z".toList =
      [("Z".toList,
        ⟨"coalesce(a.x, b.y, 0)".toList, "a.x".toList, false⟩)] ∧
    DbtModelAnalyzer._extract_source_columns_set
      "coalesce(a.x, b.y, 0)".toList =
      {"COALESCE".toList, "X".toList, "Y".toList} := by decide

/-- C6, counterexample.  The claim states `isConditional` is true only
when `CASE` occurs at a word boundary.  The code tests plain substring
containment (line 102), so the expression `a.showcase` — where `case`
occurs only inside the identifier `showcase`, at no word boundary —
still gets `is_case = true`. -/
theorem C6_substring_counterexample :
    hasCaseAtWordBoundary none "a.showcase".toList = false ∧
    parse_select_columns "a.showcase as z".toList =
      [("Z".toList, ⟨"a.showcase".toList, "a.showcase".toList, true⟩)] := by
  decide

/-- C7, counterexample.  On input `hello` (no terminal CTE) the claim
promises an empty mapping PLUS one StructureNotFound diagnostic; the
source function returns the empty dict but has no diagnostics channel
at all, so no input produces a diagnostic. -/
theorem C7_no_diagnostic_counterexample :
    ¬ (parse_final_select_enhanced "hello".toList = [] ∧
      (parse_final_select_enhanced_diags "hello".toList).length = 1) := by
  decide

/-- C8, counterexample.  The claim states both counters of both
splitters stay non-negative.  In `DbtModelAnalyzer._split_by_comma`
the `)` branch has no floor (line 230 of generate_mapping_doc.py), so
scanning the single character `)` ends with `parenDepth = -1`. -/
theorem C8_negative_paren_counterexample :
    (DbtModelAnalyzer.docScanDepths ")".toList 0 0 0).2 < 0 := by decide

/-- C9, counterexample.  The two splitters disagree on the input
consisting of one space: the enhanced splitter drops the final
whitespace-only segment (`current.strip()` test), while
`_split_by_comma` keeps any non-empty final segment
(`if current:` test). -/
theorem C9_splitters_differ_counterexample :
    DbtModelAnalyzer._split_by_comma " ".toList ≠
    split_by_comma_respecting_case " ".toList := by decide


/-- C8, amended.  In `split_by_comma_respecting_case` both counters
are floored at zero, so from any non-negative start state every state
of the scan is non-negative (every intermediate state is the final
state of the scan of a prefix, and the start state is quantified, so
this covers every position).  In `_split_by_comma` the parenthesis
counter is NOT floored and can go negative
(`C8_negative_paren_counterexample`). -/
theorem C8_enh_depths_nonneg (t : List Char) : ∀ (prev : Option Char) (d p : Int),
    0 ≤ d → 0 ≤ p →
    0 ≤ (scanCaseParen t prev d p).1 ∧ 0 ≤ (scanCaseParen t prev d p).2 := by
  induction t with
  | nil =>
    intro prev d p hd hp
    simpa [scanCaseParen] using ⟨hd, hp⟩
  | cons c cs ih =>
    intro prev d p hd hp
    simp only [scanCaseParen]
    apply ih
    · simp only [depthStep]
      split_ifs <;> first | exact le_max_left 0 _ | omega
    · simp only [depthStep]
      split_ifs <;> first | exact le_max_left 0 _ | omega

/-- C8 witness: the non-negativity theorem applied to the scan of
`)end,x` from the zero state. -/
theorem C8_enh_depths_nonneg_witness :
    (0 : Int) ≤ 0 ∧ (0 : Int) ≤ 0 ∧
    (0 ≤ (scanCaseParen ")end,x".toList none 0 0).1 ∧
      0 ≤ (scanCaseParen ")end,x".toList none 0 0).2) :=
  ⟨by decide, by decide,
    C8_enh_depths_nonneg ")end,x".toList none 0 0 (by decide) (by decide)⟩

/-- C7, amended.  When no terminal CTE is found, or no `select`/`from`
line pair is found inside its body, `parse_final_select_enhanced`
returns the empty mapping and — being a total function whose only
output is its return value — raises no exception and emits no
diagnostic. -/
theorem C7_empty_on_no_structure (sql : List Char)
    (h : noProjection sql = true) :
    parse_final_select_enhanced sql = [] ∧
    parse_final_select_enhanced_diags sql = [] := by
  refine ⟨?_, rfl⟩
  unfold noProjection at h
  cases hf : findFinalCte sql with
  | none => simp [parse_final_select_enhanced, hf]
  | some body =>
    rw [hf] at h
    simp only [Option.isNone_iff_eq_none] at h
    simp [parse_final_select_enhanced, hf, h]

/-- C7 witness: the theorem applied to the structureless input
`hello`. -/
theorem C7_empty_on_no_structure_witness :
    noProjection "hello".toList = true ∧
    (parse_final_select_enhanced "hello".toList = [] ∧
      parse_final_select_enhanced_diags "hello".toList = []) :=
  ⟨by decide, C7_empty_on_no_structure "hello".toList (by decide)⟩

/-- Helper: a keyword-quiet, parenthesis-free text leaves the enhanced
scan state unchanged. -/
theorem scanCaseParen_of_quiet (t : List Char) :
    ∀ (prev : Option Char) (d p : Int), enhKwQuiet prev t = true →
    (∀ c ∈ t, c ≠ '(' ∧ c ≠ ')') →
    scanCaseParen t prev d p = (d, p) := by
  induction t with
  | nil => intro prev d p _ _; rfl
  | cons c cs ih =>
    intro prev d p hq hpn
    simp only [enhKwQuiet, Bool.and_eq_true, Bool.not_eq_true'] at hq
    obtain ⟨⟨hq1, hq2⟩, hq3⟩ := hq
    have hc := hpn c (List.mem_cons_self c cs)
    have hstep : depthStep prev c cs d p = (d, p) := by
      simp [depthStep, hq1, hq2, hc.1, hc.2]
    simp only [scanCaseParen, hstep]
    exact ih (some c) d p hq3 (fun x hx => hpn x (List.mem_cons_of_mem c hx))

/-- Helper: one unfolding step of the enhanced scan. -/
theorem scanCaseParen_cons (c : Char) (cs : List Char) (prev : Option Char)
    (d p : Int) :
    scanCaseParen (c :: cs) prev d p =
      scanCaseParen cs (some c) (depthStep prev c cs d p).1
        (depthStep prev c cs d p).2 := rfl

/-- C2, amended.  The `CASE`/`END` tests of
`split_by_comma_respecting_case` fire only at non-ALPHANUMERIC
boundaries, and `_` is not alphanumeric: scanning the bare identifier
`ENDDATE` never changes the counters (`END` is followed by the
alphanumeric `D`), but scanning `CASE_TYPE` after a left boundary
increments `caseDepth` once, because its `CASE` is followed by `_`. -/
theorem C2_boundary_amended (prev : Option Char) (d p : Int)
    (h : leftBoundary prev = true) :
    scanCaseParen "ENDDATE".toList prev d p = (d, p) ∧
    scanCaseParen "CASE_TYPE".toList prev d p = (d + 1, p) := by
  have hD : pyIsAlnum 'D' = true := by decide
  have hU : pyIsAlnum '_' = false := by decide
  constructor
  · show scanCaseParen ['E', 'N', 'D', 'D', 'A', 'T', 'E'] prev d p = (d, p)
    have hcase0 : caseKwHere prev ['E', 'N', 'D', 'D', 'A', 'T', 'E'] = false := by
      simp only [caseKwHere]
      simp
      exact fun hx _ => absurd hx (by decide)
    have hend0 : endKwHere prev ['E', 'N', 'D', 'D', 'A', 'T', 'E'] = false := by
      simp [endKwHere, hD]
    have hq : enhKwQuiet prev ['E', 'N', 'D', 'D', 'A', 'T', 'E'] = true := by
      simp only [enhKwQuiet, hcase0, hend0, Bool.not_false, Bool.true_and]
      decide
    exact scanCaseParen_of_quiet _ prev d p hq (by decide)
  · show scanCaseParen ['C', 'A', 'S', 'E', '_', 'T', 'Y', 'P', 'E'] prev d p =
      (d + 1, p)
    have hc0 : caseKwHere prev ['C', 'A', 'S', 'E', '_', 'T', 'Y', 'P', 'E'] = true := by
      simp [caseKwHere, h, hU]
      decide
    have he0 : endKwHere prev ['C', 'A', 'S', 'E', '_', 'T', 'Y', 'P', 'E'] = false := by
      simp [endKwHere]
      exact fun hx _ => absurd hx (by decide)
    have hstep : depthStep prev 'C' ['A', 'S', 'E', '_', 'T', 'Y', 'P', 'E'] d p =
        (d + 1, p) := by
      simp [depthStep, hc0, he0]
    rw [scanCaseParen_cons, hstep]
    exact scanCaseParen_of_quiet _ (some 'C') (d + 1) p (by decide) (by decide)

/-- C2 witness: the amended theorem applied at the start of text. -/
theorem C2_boundary_amended_witness :
    leftBoundary none = true ∧
    (scanCaseParen "ENDDATE".toList none 0 0 = (0, 0) ∧
      scanCaseParen "CASE_TYPE".toList none 0 0 = (0 + 1, 0)) :=
  ⟨by decide, C2_boundary_amended none 0 0 (by decide)⟩

/-- Helper: when the final accumulated segment passes the
`current.strip()` test, the splitter loop returns one segment per
split comma plus the final one. -/
theorem splitRCgo_length (t : List Char) :
    ∀ (prev : Option Char) (d p : Int) (cur : List Char)
      (acc : List (List Char)),
    (lastSegment t prev d p cur).any (fun c => !pyIsSpace c) = true →
    (splitRCgo t prev d p cur acc).length =
      acc.length + countTopCommas t prev d p + 1 := by
  induction t with
  | nil =>
    intro prev d p cur acc h
    simp only [lastSegment] at h
    simp [splitRCgo, countTopCommas, h]
  | cons c cs ih =>
    intro prev d p cur acc h
    simp only [lastSegment] at h
    simp only [splitRCgo, countTopCommas]
    by_cases hC : c = ',' ∧ (depthStep prev c cs d p).1 = 0 ∧
        (depthStep prev c cs d p).2 = 0
    · rw [if_pos hC] at h
      rw [if_pos hC, if_pos hC]
      rw [ih (some c) _ _ [] (acc ++ [cur]) h]
      simp only [List.length_append, List.length_cons, List.length_nil]
      omega
    · rw [if_neg hC] at h
      rw [if_neg hC, if_neg hC]
      rw [ih (some c) _ _ (cur ++ [c]) acc h]
      omega

/-- C1, amended.  Provided the final accumulated segment contains a
non-whitespace character (otherwise it is dropped by the
`current.strip()` test — e.g. a trailing top-level comma or a
whitespace-only tail), the splitter returns exactly `N + 1`
expressions, where `N` is the number of commas scanned with both
depth counters at zero; commas nested in parentheses or `CASE...END`
contribute nothing. -/
theorem C1_split_count (text : List Char)
    (h : (lastSegment text none 0 0 []).any (fun c => !pyIsSpace c) = true) :
    (split_by_comma_respecting_case text).length =
      countTopCommas text none 0 0 + 1 := by
  have hl := splitRCgo_length text none 0 0 [] [] h
  simpa [split_by_comma_respecting_case] using hl

/-- C1 witness: the amended count theorem on
`a,(b,c), case when x then 1 end, d`. -/
theorem C1_split_count_witness :
    ((lastSegment "a,(b,c), case when x then 1 end, d".toList none 0 0 []).any
        (fun c => !pyIsSpace c) = true) ∧
    (split_by_comma_respecting_case
        "a,(b,c), case when x then 1 end, d".toList).length =
      countTopCommas "a,(b,c), case when x then 1 end, d".toList none 0 0 + 1 :=
  ⟨by decide, C1_split_count _ (by decide)⟩

/-- Helper: the accumulator of the splitter loop is a prefix of its
result. -/
theorem splitRCgo_append (t : List Char) :
    ∀ (prev : Option Char) (d p : Int) (cur : List Char)
      (acc : List (List Char)),
    splitRCgo t prev d p cur acc = acc ++ splitRCgo t prev d p cur [] := by
  induction t with
  | nil =>
    intro prev d p cur acc
    by_cases hc : cur.any (fun c => !pyIsSpace c) = true
    · simp [splitRCgo, hc]
    · simp [splitRCgo, hc]
  | cons c cs ih =>
    intro prev d p cur acc
    simp only [splitRCgo]
    by_cases hC : c = ',' ∧ (depthStep prev c cs d p).1 = 0 ∧
        (depthStep prev c cs d p).2 = 0
    · rw [if_pos hC, if_pos hC,
        ih (some c) _ _ [] (acc ++ [cur]), ih (some c) _ _ [] ([] ++ [cur])]
      simp
    · rw [if_neg hC, if_neg hC, ih (some c) _ _ (cur ++ [c]) acc]

/-- Helper: `joinComma` over a cons with a non-empty tail. -/
theorem joinComma_cons (x : List Char) (R : List (List Char)) (h : R ≠ []) :
    joinComma (x :: R) = x ++ ',' :: joinComma R := by
  cases R with
  | nil => exact absurd rfl h
  | cons r R' => rfl

/-- Helper: rejoining the loop's segments with commas restores the
unscanned text after the current segment. -/
theorem splitRCgo_join (t : List Char) :
    ∀ (prev : Option Char) (d p : Int) (cur : List Char),
    (lastSegment t prev d p cur).any (fun c => !pyIsSpace c) = true →
    joinComma (splitRCgo t prev d p cur []) = cur ++ t := by
  induction t with
  | nil =>
    intro prev d p cur h
    simp only [lastSegment] at h
    simp [splitRCgo, h, joinComma]
  | cons c cs ih =>
    intro prev d p cur h
    simp only [lastSegment] at h
    simp only [splitRCgo]
    by_cases hC : c = ',' ∧ (depthStep prev c cs d p).1 = 0 ∧
        (depthStep prev c cs d p).2 = 0
    · rw [if_pos hC] at h ⊢
      rw [List.nil_append,
        splitRCgo_append cs (some c) _ _ [] [cur]]
      have hRne : splitRCgo cs (some c) (depthStep prev c cs d p).1
          (depthStep prev c cs d p).2 [] [] ≠ [] := by
        intro hco
        have hlen := splitRCgo_length cs (some c) _ _ [] [] h
        rw [hco] at hlen
        simp at hlen
      rw [List.singleton_append, joinComma_cons cur _ hRne,
        ih (some c) _ _ [] h, List.nil_append, hC.1]
    · rw [if_neg hC] at h ⊢
      rw [ih (some c) _ _ (cur ++ [c]) h]
      simp

/-- C10 (confirmed).  When the final accumulated segment contains a
non-whitespace character, joining the splitter's output with single
commas reproduces the input exactly: the splitter drops only the
top-level commas it splits at, and alters nothing else. -/
theorem C10_join_roundtrip (text : List Char)
    (h : (lastSegment text none 0 0 []).any (fun c => !pyIsSpace c) = true) :
    joinComma (split_by_comma_respecting_case text) = text := by
  have hj := splitRCgo_join text none 0 0 [] h
  simpa [split_by_comma_respecting_case] using hj

/-- C10 witness: the round trip on `a,(b,c), case when x then 1 end, d`. -/
theorem C10_join_roundtrip_witness :
    ((lastSegment "a,(b,c), case when x then 1 end, d".toList none 0 0 []).any
        (fun c => !pyIsSpace c) = true) ∧
    joinComma (split_by_comma_respecting_case
        "a,(b,c), case when x then 1 end, d".toList) =
      "a,(b,c), case when x then 1 end, d".toList :=
  ⟨by decide, C10_join_roundtrip _ (by decide)⟩

/-- Helper: a word character is not whitespace. -/
theorem wordChar_not_space (c : Char) (h : isWordChar c = true) :
    pyIsSpace c = false := by
  cases hsp : pyIsSpace c
  · rfl
  · exfalso
    simp only [pyIsSpace, Bool.or_eq_true, decide_eq_true_eq] at hsp
    rcases hsp with ((((h1 | h1) | h1) | h1) | h1) | h1 <;> subst h1 <;>
      exact absurd h (by decide)

/-- Helper: `takeWhile` keeps a list all of whose elements satisfy the
predicate. -/
theorem takeWhile_eq_self_of_all {p : Char → Bool} :
    ∀ t : List Char, (∀ c ∈ t, p c = true) → t.takeWhile p = t := by
  intro t
  induction t with
  | nil => intro _; rfl
  | cons c cs ih =>
    intro h
    rw [List.takeWhile_cons, if_pos (h c (List.mem_cons_self c cs))]
    rw [ih (fun x hx => h x (List.mem_cons_of_mem c hx))]

/-- Helper: stripping changes nothing when the first and last
characters are not whitespace. -/
theorem pyStrip_ends (x : Char) (m : List Char) (z : Char)
    (hx : pyIsSpace x = false) (hz : pyIsSpace z = false) :
    pyStrip (x :: (m ++ [z])) = x :: (m ++ [z]) := by
  unfold pyStrip
  rw [List.dropWhile_cons, hx]
  simp only [Bool.false_eq_true, if_false]
  rw [List.reverse_cons, List.reverse_append, List.reverse_singleton,
    List.singleton_append, List.cons_append, List.dropWhile_cons, hz]
  simp

/-- Helper: stripping a list with no whitespace at all changes
nothing. -/
theorem pyStrip_of_no_space (t : List Char)
    (h : ∀ c ∈ t, pyIsSpace c = false) : pyStrip t = t := by
  cases t with
  | nil => rfl
  | cons x xs =>
    rcases List.eq_nil_or_concat xs with hnil | ⟨m, z, rfl⟩
    · subst hnil
      have hx := h x (List.mem_cons_self x [])
      unfold pyStrip
      rw [List.dropWhile_cons, hx]
      simp only [Bool.false_eq_true, if_false]
      simp [List.dropWhile_cons, hx]
    · simp only [List.concat_eq_append]
      exact pyStrip_ends x m z (h x (by simp)) (h z (by simp))

/-- Helper: `pySplitWSgo` over a whitespace-free remainder flushes one
token. -/
theorem pySplitWSgo_no_space :
    ∀ (t tok : List Char), (∀ c ∈ t, pyIsSpace c = false) →
    pySplitWSgo t tok =
      if tok.reverse ++ t = [] then [] else [tok.reverse ++ t] := by
  intro t
  induction t with
  | nil =>
    intro tok _
    cases htok : tok.isEmpty
    · simp only [pySplitWSgo, htok, Bool.false_eq_true, if_false]
      have : tok ≠ [] := by
        intro hco; rw [hco] at htok; exact absurd htok (by decide)
      simp [this]
    · have : tok = [] := by
        cases tok with
        | nil => rfl
        | cons a as => simp at htok
      subst this
      simp [pySplitWSgo]
  | cons c cs ih =>
    intro tok h
    have hc := h c (List.mem_cons_self c cs)
    simp only [pySplitWSgo, hc, Bool.false_eq_true, if_false]
    rw [ih (c :: tok) (fun x hx => h x (List.mem_cons_of_mem c hx))]
    simp

/-- Helper: collapsing whitespace changes nothing on a non-empty
whitespace-free list. -/
theorem pyCollapseWS_of_no_space (t : List Char)
    (h : ∀ c ∈ t, pyIsSpace c = false) (hne : t ≠ []) :
    pyCollapseWS t = t := by
  unfold pyCollapseWS pySplitWS
  rw [pySplitWSgo_no_space t [] h]
  simp [hne, joinSpace]

/-- Helper: the suffix regex `\s+as\s+(\w+)\s*$` matches `" as "`
followed by a non-empty word. -/
theorem asSuffixAlias_sep (w : List Char) (hw : w ≠ [])
    (hww : ∀ c ∈ w, isWordChar c = true) :
    asSuffixAlias (' ' :: 'a' :: 's' :: ' ' :: w) = some w := by
  cases w with
  | nil => exact absurd rfl hw
  | cons w0 w' =>
    have h0 : pyIsSpace w0 = false := wordChar_not_space w0 (hww w0 (by simp))
    have hword : (w0 :: w').takeWhile isWordChar = w0 :: w' :=
      takeWhile_eq_self_of_all _ hww
    have hsp : pyIsSpace ' ' = true := by decide
    have ha : pyIsSpace 'a' = false := by decide
    have hlow : lowerL ['a', 's'] = ['a', 's'] := by decide
    simp [asSuffixAlias, List.takeWhile_cons, hsp, ha, h0, hword, hlow,
      List.drop_length]

/-- Helper: the lazy alias regex on `e ++ " as " ++ w` with a
whitespace-free `e` and a word `w` captures exactly `(e, w)`. -/
theorem asSplitSearch_as_form (e : List Char) :
    ∀ (pre w : List Char), (∀ c ∈ e, pyIsSpace c = false) → w ≠ [] →
    (∀ c ∈ w, isWordChar c = true) →
    asSplitSearch pre (e ++ " as ".toList ++ w) = some (pre ++ e, w) := by
  induction e with
  | nil =>
    intro pre w _ hw hww
    show asSplitSearch pre (' ' :: 'a' :: 's' :: ' ' :: w) = some (pre ++ [], w)
    simp only [asSplitSearch, asSuffixAlias_sep w hw hww, List.append_nil]
  | cons c e' ih =>
    intro pre w he hw hww
    have hc : pyIsSpace c = false := he c (by simp)
    have hn : asSuffixAlias (c :: (e' ++ " as ".toList ++ w)) = none := by
      simp [asSuffixAlias, List.takeWhile_cons, hc]
    show asSplitSearch pre (c :: (e' ++ " as ".toList ++ w)) =
      some (pre ++ c :: e', w)
    simp only [asSplitSearch, hn]
    rw [ih (pre ++ [c]) w (fun x hx => he x (by simp [hx])) hw hww]
    simp

/-- C4, amended.  Only the explicit `AS` form produces a mapping in
`generate_enhanced_mapping`: for `e ++ " as " ++ w` with `e` non-empty
and whitespace-free and `w` a non-empty word, `parseColumnEntry`
yields the alias `w` uppercased, the stored expression `e` (trimmed
and whitespace-collapsed, here equal to `e`), its first
`qualifier.column` match and the substring-based `is_case` flag.  The
`expression identifier` form WITHOUT `as` is dropped entirely
(`C4_no_as_dropped_counterexample`); `DbtModelAnalyzer` accepts it but
stores the expression only stripped, not whitespace-collapsed. -/
theorem C4_as_form (e w : List Char) (he : e ≠ [])
    (hens : ∀ c ∈ e, pyIsSpace c = false) (hw : w ≠ [])
    (hww : ∀ c ∈ w, isWordChar c = true) :
    parseColumnEntry (e ++ " as ".toList ++ w) =
      some (upperL w,
        ⟨e, extract_source_column e,
          containsSeq ['c', 'a', 's', 'e'] (lowerL e)⟩) := by
  obtain ⟨e0, e', rfl⟩ : ∃ e0 e', e = e0 :: e' := by
    cases e with
    | nil => exact absurd rfl he
    | cons a b => exact ⟨a, b, rfl⟩
  obtain ⟨w'', wl, rfl⟩ : ∃ w'' wl, w = w'' ++ [wl] := by
    rcases List.eq_nil_or_concat w with h | ⟨L, b, hLb⟩
    · exact absurd h hw
    · exact ⟨L, b, by simpa [List.concat_eq_append] using hLb⟩
  have hx : pyIsSpace e0 = false := hens e0 (by simp)
  have hz : pyIsSpace wl = false := wordChar_not_space wl (hww wl (by simp))
  have hshape : (e0 :: e') ++ " as ".toList ++ (w'' ++ [wl]) =
      e0 :: ((e' ++ " as ".toList ++ w'') ++ [wl]) := by simp
  have hstrip : pyStrip ((e0 :: e') ++ " as ".toList ++ (w'' ++ [wl])) =
      (e0 :: e') ++ " as ".toList ++ (w'' ++ [wl]) := by
    rw [hshape]
    rw [pyStrip_ends e0 _ wl hx hz]
  unfold parseColumnEntry
  rw [hstrip]
  have hne : ((e0 :: e') ++ " as ".toList ++ (w'' ++ [wl])).isEmpty = false := by
    simp
  simp only [hne, Bool.false_eq_true, if_false,
    asSplitSearch_as_form (e0 :: e') [] (w'' ++ [wl]) hens hw hww,
    List.nil_append, pyStrip_of_no_space _ hens,
    pyCollapseWS_of_no_space _ hens he]

/-- C4 witness: the AS form on `coalesce(a.x,b.y) as z`. -/
theorem C4_as_form_witness :
    ("coalesce(a.x,b.y)".toList ≠ [] ∧
      (∀ c ∈ "coalesce(a.x,b.y)".toList, pyIsSpace c = false) ∧
      "z".toList ≠ [] ∧ (∀ c ∈ "z".toList, isWordChar c = true)) ∧
    parseColumnEntry ("coalesce(a.x,b.y)".toList ++ " as ".toList ++
        "z".toList) =
      some (upperL "z".toList,
        ⟨"coalesce(a.x,b.y)".toList,
          extract_source_column "coalesce(a.x,b.y)".toList,
          containsSeq ['c', 'a', 's', 'e']
            (lowerL "coalesce(a.x,b.y)".toList)⟩) :=
  ⟨⟨by decide, by decide, by decide, by decide⟩,
    C4_as_form "coalesce(a.x,b.y)".toList "z".toList (by decide) (by decide)
      (by decide) (by decide)⟩

/-- Helper: every record built by `parseColumnEntry` carries the
substring-containment flag of its own stored expression. -/
theorem parseColumnEntry_is_case (e : List Char) (p : List Char × ColRec)
    (h : parseColumnEntry e = some p) :
    p.2.is_case = containsSeq ['c', 'a', 's', 'e'] (lowerL p.2.expression) := by
  unfold parseColumnEntry at h
  dsimp only at h
  split at h
  · exact absurd h (by simp)
  · split at h
    · exact absurd h (by simp)
    · injection h with h'
      subst h'
      rfl

/-- Helper: `dictInsert` preserves a property held by all entries and
by the inserted pair. -/
theorem dictInsert_forall (P : List Char × ColRec → Prop)
    (m : List (List Char × ColRec)) (k : List Char) (v : ColRec)
    (hm : ∀ q ∈ m, P q) (hv : P (k, v)) :
    ∀ q ∈ dictInsert m k v, P q := by
  intro q hq
  unfold dictInsert at hq
  split at hq
  · rcases List.mem_map.mp hq with ⟨r, hr, hrq⟩
    by_cases hrk : r.1 = k
    · rw [if_pos hrk] at hrq
      subst hrq
      exact hv
    · rw [if_neg hrk] at hrq
      subst hrq
      exact hm r hr
  · rcases List.mem_append.mp hq with h1 | h1
    · exact hm q h1
    · simp only [List.mem_singleton] at h1
      subst h1
      exact hv

/-- Helper: the `parse_select_columns` fold preserves the `is_case`
invariant. -/
theorem foldl_entries_is_case (es : List (List Char)) :
    ∀ acc : List (List Char × ColRec),
    (∀ q ∈ acc,
      q.2.is_case = containsSeq ['c', 'a', 's', 'e'] (lowerL q.2.expression)) →
    ∀ p ∈ es.foldl
      (fun cols e =>
        match parseColumnEntry e with
        | some (k, v) => dictInsert cols k v
        | none => cols) acc,
    p.2.is_case = containsSeq ['c', 'a', 's', 'e'] (lowerL p.2.expression) := by
  induction es with
  | nil =>
    intro acc hacc p hp
    exact hacc p hp
  | cons e es ih =>
    intro acc hacc p hp
    simp only [List.foldl_cons] at hp
    refine ih _ ?_ p hp
    cases hpe : parseColumnEntry e with
    | none =>
      simp only [hpe]
      exact hacc
    | some kv =>
      rcases kv with ⟨k, v⟩
      simp only [hpe]
      exact dictInsert_forall _ acc k v hacc
        (parseColumnEntry_is_case e (k, v) hpe)

/-- C6, amended.  The `isConditional` flag of every produced
`ColumnMapping` is true **iff** the four-character sequence `case`
occurs anywhere as a substring of the lowercased stored expression —
plain containment (`'case' in expression.lower()`), not a
word-boundary test: `CASE` inside a longer identifier also sets the
flag (`C6_substring_counterexample`). -/
theorem C6_is_case_substring (s : List Char) (p : List Char × ColRec)
    (hp : p ∈ parse_select_columns s) :
    p.2.is_case = containsSeq ['c', 'a', 's', 'e'] (lowerL p.2.expression) := by
  unfold parse_select_columns at hp
  exact foldl_entries_is_case _ [] (by simp) p hp

/-- C6 witness: the flag equation on an entry produced from
`a.x as y, case when b then 1 end as z`. -/
theorem C6_is_case_substring_witness :
    (("Y".toList, (⟨"a.x".toList, "a.x".toList, false⟩ : ColRec)) ∈
      parse_select_columns
        "a.x as y, case when b then 1 end as z".toList) ∧
    (("Y".toList, (⟨"a.x".toList, "a.x".toList, false⟩ : ColRec)).2.is_case =
      containsSeq ['c', 'a', 's', 'e']
        (lowerL ("Y".toList,
          (⟨"a.x".toList, "a.x".toList, false⟩ : ColRec)).2.expression)) :=
  ⟨by decide,
    C6_is_case_substring "a.x as y, case when b then 1 end as z".toList _
      (by decide)⟩

/-- Helper: on keyword-free text with no unmatched `)` and a
non-negative start depth, the two splitter loops coincide, provided
the final segment is empty or survives the strip test. -/
theorem splitters_agree_go (t : List Char) :
    ∀ (prev : Option Char) (p : Int) (cur : List Char)
      (acc : List (List Char)),
    kwFree t = true → parenOk p t = true → 0 ≤ p →
    (lastSegment t prev 0 p cur = [] ∨
      (lastSegment t prev 0 p cur).any (fun c => !pyIsSpace c) = true) →
    DbtModelAnalyzer.docSplitGo t 0 p 0 cur acc =
      splitRCgo t prev 0 p cur acc := by
  induction t with
  | nil =>
    intro prev p cur acc _ _ _ h3
    simp only [lastSegment] at h3
    rcases h3 with hnil | hany
    · subst hnil
      simp [DbtModelAnalyzer.docSplitGo, splitRCgo]
    · have hne : cur ≠ [] := by
        intro hco
        rw [hco] at hany
        simp at hany
      have hie : cur.isEmpty = false := by
        cases cur with
        | nil => exact absurd rfl hne
        | cons a as => rfl
      simp [DbtModelAnalyzer.docSplitGo, splitRCgo, hany, hie]
  | cons c cs ih =>
    intro prev p cur acc h1 h2 hp h3
    simp only [kwFree, Bool.and_eq_true, Bool.not_eq_true'] at h1
    obtain ⟨⟨⟨⟨hlc, huc⟩, hle⟩, hue⟩, htail⟩ := h1
    have hcase : caseKwHere prev (c :: cs) = false := by
      simp only [caseKwHere, hlc, Bool.false_and]
    have hend : endKwHere prev (c :: cs) = false := by
      simp only [endKwHere, hle, Bool.false_and]
    have hstep : depthStep prev c cs 0 p =
        (0, if c = '(' then p + 1 else if c = ')' then max 0 (p - 1) else p) := by
      simp [depthStep, hcase, hend]
    simp only [DbtModelAnalyzer.docSplitGo, huc, hue, Bool.false_eq_true,
      if_false]
    simp only [splitRCgo, hstep]
    simp only [lastSegment, hstep] at h3
    by_cases hpar1 : c = '('
    · subst hpar1
      have hqF : (('(' : Char) = ',') ↔ False := iff_false_intro (by decide)
      have hqT : (('(' : Char) = '(') ↔ True := iff_true_intro rfl
      have hqR : (('(' : Char) = ')') ↔ False := iff_false_intro (by decide)
      simp only [parenOk, hqT, if_true] at h2
      simp only [hqF, hqT, hqR, false_and, if_false, if_true] at h3 ⊢
      exact ih (some '(') (p + 1) (cur ++ ['(']) acc htail h2 (by omega) h3
    · by_cases hpar2 : c = ')'
      · subst hpar2
        have hqF : ((')' : Char) = ',') ↔ False := iff_false_intro (by decide)
        have hqT : ((')' : Char) = ')') ↔ True := iff_true_intro rfl
        have hqL : ((')' : Char) = '(') ↔ False := iff_false_intro (by decide)
        simp only [parenOk, hqT, hqL, false_and, if_false, if_true,
          Bool.and_eq_true, decide_eq_true_eq] at h2
        have hmax : max 0 (p - 1) = p - 1 := max_eq_right (by omega)
        simp only [hqF, hqT, hqL, false_and, if_false, if_true, hmax] at h3 ⊢
        exact ih (some ')') (p - 1) (cur ++ [')']) acc htail h2.2 (by omega) h3
      · have h2' : parenOk p cs = true := by
          simpa only [parenOk, if_neg hpar1, if_neg hpar2] using h2
        simp only [if_neg hpar1, if_neg hpar2, eq_self_iff_true, and_true,
          true_and] at h3 ⊢
        by_cases hcm : c = ',' ∧ p = 0
        · simp only [if_pos hcm] at h3 ⊢
          exact ih (some c) p [] (acc ++ [cur]) htail h2' hp h3
        · simp only [if_neg hcm] at h3 ⊢
          exact ih (some c) p (cur ++ [c]) acc htail h2' hp h3

/-- C9, amended.  The two splitters are NOT equivalent in general
(`C9_splitters_differ_counterexample`); they agree on every input that
(i) contains no `CASE`/`END` occurrence under either implementation's
four/three-character window test, (ii) has no prefix with more `)`
than `(`, and (iii) whose final accumulated segment is empty or keeps
a non-whitespace character.  Each hypothesis is forced by a
divergence: ` ` (final-segment test), `),x` (negative parenthesis
depth) and `CASE_TYPE,x` / `a, END` (keyword handling). -/
theorem C9_splitters_agree (t : List Char)
    (h1 : kwFree t = true) (h2 : parenOk 0 t = true)
    (h3 : lastSegment t none 0 0 [] = [] ∨
      (lastSegment t none 0 0 []).any (fun c => !pyIsSpace c) = true) :
    DbtModelAnalyzer._split_by_comma t = split_by_comma_respecting_case t := by
  unfold DbtModelAnalyzer._split_by_comma split_by_comma_respecting_case
  exact splitters_agree_go t none 0 [] [] h1 h2 le_rfl h3

/-- C9 witness: agreement on `a.x, f(b, c), d`. -/
theorem C9_splitters_agree_witness :
    (kwFree "a.x, f(b, c), d".toList = true ∧
      parenOk 0 "a.x, f(b, c), d".toList = true ∧
      (lastSegment "a.x, f(b, c), d".toList none 0 0 [] = [] ∨
        (lastSegment "a.x, f(b, c), d".toList none 0 0 []).any
          (fun c => !pyIsSpace c) = true)) ∧
    DbtModelAnalyzer._split_by_comma "a.x, f(b, c), d".toList =
      split_by_comma_respecting_case "a.x, f(b, c), d".toList :=
  ⟨⟨by decide, by decide, by decide⟩,
    C9_splitters_agree "a.x, f(b, c), d".toList (by decide) (by decide)
      (by decide)⟩
